import Mathlib

/-!
Verification of the route-planning core of the repository
(`src/routes.py` and `src/modes.py`) against its specification.

The Python code is shallowly embedded below.  Distances and monetary
costs from `routes.py` are modelled as rationals (`ℚ`), the Python
float value `inf` used to initialise the dynamic-programming table as
`⊤ : WithTop ℚ`.  The TOPSIS procedure in `modes.py` uses square roots,
so that part is modelled over the reals.  Python dictionaries are
modelled as functions into `Option`, and Python exceptions as `Except`.
-/

set_option maxHeartbeats 1600000

namespace TarjanRoute

/-! ## Embedding of `src/routes.py` -/

/-- A location record: `{name, latitude, longitude}`. -/
structure LocationRec where
  name : String
  latitude : ℚ
  longitude : ℚ

/-- One Python dictionary write, `m[k] = v`. -/
def dinsert (m : String × String → Option ℚ) (k : String × String) (v : ℚ) :
    String × String → Option ℚ :=
  fun q => if q = k then some v else m q

/-- `itertools.combinations(l, 2)`, in iteration order. -/
def combos {α : Type} : List α → List (α × α)
  | [] => []
  | x :: xs => (xs.map fun y => (x, y)) ++ combos xs

/-- `calculate_symmetric_distances` from `src/routes.py`.  The external
geodesic primitive `calculate_distance` is a parameter `gc` (it is a
pure function of the two coordinate pairs; the `lru_cache` and the
exception-to-infinity fallback do not change which value a given pair
maps to).  The result is the distances dictionary. -/
def calculate_symmetric_distances (gc : ℚ × ℚ → ℚ × ℚ → ℚ)
    (relatives : List LocationRec) (home : LocationRec) :
    String × String → Option ℚ :=
  let m1 := (combos relatives).foldl
    (fun m p =>
      let dist := gc (p.1.latitude, p.1.longitude) (p.2.latitude, p.2.longitude)
      dinsert (dinsert m (p.1.name, p.2.name) dist) (p.2.name, p.1.name) dist)
    (fun _ => none)
  relatives.foldl
    (fun m r =>
      let dist := gc (home.latitude, home.longitude) (r.latitude, r.longitude)
      dinsert (dinsert m (home.name, r.name) dist) (r.name, home.name) dist)
    m1

/-- The Held–Karp table of `find_shortest_route`: `dp d0 d v s` is the
final value of the Python cell `dp[v][s]` — the minimum cost of a path
that starts at the home, visits exactly the destinations in `s` and ends
at `v ∈ s`.  `d0 i` is `distances[(home, names[i])]` and `d u v` is
`distances[(names[u], names[v])]`.  The iterative fill of the Python
table is total (masks are processed in increasing order, and every
transition goes from a mask to a strictly larger one), so the final
table satisfies exactly this recurrence. -/
def dp {n : ℕ} (d0 : Fin n → ℚ) (d : Fin n → Fin n → ℚ)
    (v : Fin n) (s : Finset (Fin n)) : WithTop ℚ :=
  if hv : v ∈ s then
    if s.card = 1 then ((d0 v : ℚ) : WithTop ℚ)
    else (s.erase v).inf fun u => dp d0 d u (s.erase v) + ((d u v : ℚ) : WithTop ℚ)
  else ⊤
termination_by s.card
decreasing_by exact Finset.card_erase_lt_of_mem hv

/-- The least element of a finite set of indices, `none` if it is empty.
Used to model the Python scans that keep the first strict improvement:
such a scan returns the smallest index attaining the minimum. -/
def finsetLeast {n : ℕ} (s : Finset (Fin n)) : Option (Fin n) :=
  if h : s.Nonempty then some (s.min' h) else none

/-- The final value of the Python cell `parent[v][s]`: the smallest
`u ∈ s \ {v}` attaining the minimum of `dp[u][s \ {v}] + d(u, v)`, and
`none` (Python `-1`) when the cell was never written, i.e. when
`s \ {v}` is empty. -/
def bestPred {n : ℕ} (d0 : Fin n → ℚ) (d : Fin n → Fin n → ℚ)
    (v : Fin n) (s : Finset (Fin n)) : Option (Fin n) :=
  finsetLeast ((s.erase v).filter fun u =>
    dp d0 d u (s.erase v) + ((d u v : ℚ) : WithTop ℚ) =
      (s.erase v).inf fun w => dp d0 d w (s.erase v) + ((d w v : ℚ) : WithTop ℚ))

/-- The backwards reconstruction loop of `find_shortest_route`: starting
from `last_node` and the full mask, repeatedly append the current node
and follow `parent` while clearing the current bit, until parent `-1`.
The loop maintains `v ∈ s`; the `else` branch is unreachable. -/
def backPath {n : ℕ} (d0 : Fin n → ℚ) (d : Fin n → Fin n → ℚ)
    (v : Fin n) (s : Finset (Fin n)) : List (Fin n) :=
  if hv : v ∈ s then
    match bestPred d0 d v s with
    | none => [v]
    | some u => v :: backPath d0 d u (s.erase v)
  else [v]
termination_by s.card
decreasing_by exact Finset.card_erase_lt_of_mem hv

/-- Result record of `find_shortest_route`: `{"route": ..., "distance": ...}`. -/
structure RouteResult where
  route : List String
  distance : WithTop ℚ
deriving DecidableEq

/-- `find_shortest_route` from `src/routes.py`.  Destinations are
indexed by `Fin n` (`names i` is `relatives[i]["name"]`); `d0 i` models
the dictionary read `distances[(tarjan_home_name, names[i])]`, `dR i`
the read `distances[(names[i], tarjan_home_name)]`, and `d u v` the read
`distances[(names[u], names[v])]` (the claims under verification only
concern runs where these reads succeed). -/
def find_shortest_route (n : ℕ) (names : Fin n → String) (origin : String)
    (d0 dR : Fin n → ℚ) (d : Fin n → Fin n → ℚ) : RouteResult :=
  if _h0 : n = 0 then ⟨[], 0⟩
  else if h1 : n = 1 then
    let i : Fin n := ⟨0, by omega⟩
    ⟨[origin, names i], ((d0 i + dR i : ℚ) : WithTop ℚ)⟩
  else
    let minD := Finset.univ.inf fun v => dp d0 d v Finset.univ
    match finsetLeast (Finset.univ.filter fun v => dp d0 d v Finset.univ = minD) with
    | none => ⟨[origin], minD⟩
    | some v => ⟨origin :: ((backPath d0 d v Finset.univ).reverse.map names), minD⟩

/-- Cost of the tail of a route: `chainCost d a l` sums `d` along
`a :: l`. -/
def chainCost {n : ℕ} (d : Fin n → Fin n → ℚ) : Fin n → List (Fin n) → ℚ
  | _, [] => 0
  | a, b :: t => d a b + chainCost d b t

/-- Total cost of visiting the destinations in the order given by the
list, starting from home: `d0 l₀ + Σ d lᵢ lᵢ₊₁`.  No return leg to the
home is included. -/
def routeCost {n : ℕ} (d0 : Fin n → ℚ) (d : Fin n → Fin n → ℚ) :
    List (Fin n) → ℚ
  | [] => 0
  | a :: t => d0 a + chainCost d a t

/-! ### Basic facts about the table `dp` -/

theorem dp_singleton {n : ℕ} (d0 : Fin n → ℚ) (d : Fin n → Fin n → ℚ)
    {v : Fin n} {s : Finset (Fin n)} (hv : v ∈ s) (h1 : s.card = 1) :
    dp d0 d v s = ((d0 v : ℚ) : WithTop ℚ) := by
  rw [dp]
  simp [hv, h1]

theorem dp_step {n : ℕ} (d0 : Fin n → ℚ) (d : Fin n → Fin n → ℚ)
    {v : Fin n} {s : Finset (Fin n)} (hv : v ∈ s) (h1 : s.card ≠ 1) :
    dp d0 d v s =
      (s.erase v).inf fun u => dp d0 d u (s.erase v) + ((d u v : ℚ) : WithTop ℚ) := by
  rw [dp]
  simp [hv, h1]

theorem chainCost_cons {n : ℕ} (d : Fin n → Fin n → ℚ)
    (a b : Fin n) (l : List (Fin n)) :
    chainCost d a (b :: l) = d a b + chainCost d b l := rfl

theorem chainCost_append {n : ℕ} (d : Fin n → Fin n → ℚ)
    (a : Fin n) (l : List (Fin n)) (v : Fin n) :
    chainCost d a (l ++ [v]) =
      chainCost d a l + d ((a :: l).getLast (List.cons_ne_nil a l)) v := by
  induction l generalizing a with
  | nil => simp [chainCost]
  | cons b t ih =>
    have hlast : (a :: b :: t).getLast (List.cons_ne_nil a (b :: t)) =
        (b :: t).getLast (List.cons_ne_nil b t) := List.getLast_cons (List.cons_ne_nil b t)
    rw [List.cons_append, chainCost_cons, chainCost_cons, ih b, hlast]
    ring

theorem routeCost_append {n : ℕ} (d0 : Fin n → ℚ) (d : Fin n → Fin n → ℚ)
    (l : List (Fin n)) (hl : l ≠ []) (v : Fin n) :
    routeCost d0 d (l ++ [v]) = routeCost d0 d l + d (l.getLast hl) v := by
  cases l with
  | nil => exact absurd rfl hl
  | cons a t =>
    simp only [List.cons_append, routeCost, chainCost_append]
    ring

/-- The table `dp` is a lower bound for the cost of every route: for any
duplicate-free list `l` of destinations ending at `v`,
`dp v l.toFinset ≤ routeCost l`. -/
theorem dp_le_routeCost {n : ℕ} (d0 : Fin n → ℚ) (d : Fin n → Fin n → ℚ)
    (l : List (Fin n)) :
    ∀ (_ : l.Nodup) (v : Fin n) (_ : l.getLast? = some v),
      dp d0 d v l.toFinset ≤ ((routeCost d0 d l : ℚ) : WithTop ℚ) := by
  induction l using List.reverseRecOn with
  | nil => intro _ v hv; simp at hv
  | append_singleton l a ih =>
    intro hn v hv
    have hva : v = a := by
      rw [List.getLast?_concat] at hv
      exact (Option.some_inj.mp hv).symm
    subst hva
    have hnl : l.Nodup ∧ v ∉ l := by
      rw [List.nodup_append] at hn
      refine ⟨hn.1, fun hmem => ?_⟩
      exact hn.2.2 hmem (List.mem_singleton_self v)
    by_cases hl : l = []
    · subst hl
      simp only [List.nil_append]
      have hmem : v ∈ ([v] : List (Fin n)).toFinset := by simp
      rw [dp_singleton d0 d hmem (by simp)]
      simp [routeCost, chainCost]
    · have hmemv : v ∈ (l ++ [v]).toFinset := by simp
      have herase : (l ++ [v]).toFinset.erase v = l.toFinset := by
        rw [List.toFinset_append]
        simp only [List.toFinset_cons, List.toFinset_nil, insert_emptyc_eq]
        rw [Finset.union_comm, ← Finset.insert_eq]
        exact Finset.erase_insert (by simpa using hnl.2)
      have hlc : l.toFinset.card ≠ 0 := by
        simp only [ne_eq, Finset.card_eq_zero, List.toFinset_eq_empty_iff]
        exact hl
      have hcard : (l ++ [v]).toFinset.card ≠ 1 := by
        intro hone
        have h2 : (l ++ [v]).toFinset.erase v = ∅ := by
          rw [← Finset.card_eq_zero, Finset.card_erase_of_mem hmemv, hone]
      -- the erased set is `l.toFinset`, which is nonempty
        rw [herase, ← Finset.card_eq_zero] at h2
        exact hlc h2
      have hu : l.getLast? = some (l.getLast hl) := List.getLast?_eq_getLast_of_ne_nil hl
      have humem : l.getLast hl ∈ l.toFinset := by
        rw [List.mem_toFinset]
        exact List.getLast_mem hl
      have hih := ih hnl.1 (l.getLast hl) hu
      calc dp d0 d v (l ++ [v]).toFinset
          = (l.toFinset).inf
              (fun u => dp d0 d u l.toFinset + ((d u v : ℚ) : WithTop ℚ)) := by
            rw [dp_step d0 d hmemv hcard, herase]
        _ ≤ dp d0 d (l.getLast hl) l.toFinset + ((d (l.getLast hl) v : ℚ) : WithTop ℚ) :=
            Finset.inf_le humem
        _ ≤ ((routeCost d0 d l : ℚ) : WithTop ℚ) + ((d (l.getLast hl) v : ℚ) : WithTop ℚ) :=
            add_le_add_right hih _
        _ = ((routeCost d0 d (l ++ [v]) : ℚ) : WithTop ℚ) := by
            rw [routeCost_append d0 d l hl v]
            push_cast
            ring

/-- Every table entry `dp v s` with `v ∈ s` is attained by an actual
route: a duplicate-free list with element set `s` ending at `v`. -/
theorem dp_attained {n : ℕ} (d0 : Fin n → ℚ) (d : Fin n → Fin n → ℚ)
    (s : Finset (Fin n)) :
    ∀ v ∈ s, ∃ l : List (Fin n), l.Nodup ∧ l.toFinset = s ∧
      l.getLast? = some v ∧ ((routeCost d0 d l : ℚ) : WithTop ℚ) = dp d0 d v s := by
  induction s using Finset.strongInduction with
  | _ s ih =>
    intro v hv
    by_cases h1 : s.card = 1
    · obtain ⟨a, ha⟩ := Finset.card_eq_one.mp h1
      have hva : v = a := by
        rw [ha, Finset.mem_singleton] at hv
        exact hv
      refine ⟨[v], List.nodup_singleton v, ?_, rfl, ?_⟩
      · rw [ha, hva]; simp
      · rw [dp_singleton d0 d hv h1]
        simp [routeCost, chainCost]
    · have hne : (s.erase v).Nonempty := by
        rw [← Finset.card_pos, Finset.card_erase_of_mem hv]
        have := Finset.card_pos.mpr ⟨v, hv⟩
        omega
      obtain ⟨u, hu, hinf⟩ := Finset.exists_mem_eq_inf (s.erase v) hne
        (fun u => dp d0 d u (s.erase v) + ((d u v : ℚ) : WithTop ℚ))
      obtain ⟨l, hlnd, hlf, hllast, hlcost⟩ :=
        ih (s.erase v) (Finset.erase_ssubset hv) u hu
      have hlne : l ≠ [] := by
        intro h
        subst h
        simp only [List.toFinset_nil] at hlf
        exact Finset.not_nonempty_empty (hlf ▸ hne)
      have hvnl : v ∉ l := by
        intro hmem
        have : v ∈ s.erase v := hlf ▸ List.mem_toFinset.mpr hmem
        exact (Finset.not_mem_erase v s) this
      refine ⟨l ++ [v], ?_, ?_, List.getLast?_concat l, ?_⟩
      · rw [List.nodup_append]
        exact ⟨hlnd, List.nodup_singleton v,
          fun a hal hav => hvnl ((List.mem_singleton.mp hav) ▸ hal)⟩
      · rw [List.toFinset_append, hlf]
        simp only [List.toFinset_cons, List.toFinset_nil, insert_emptyc_eq]
        rw [Finset.union_comm, ← Finset.insert_eq]
        exact Finset.insert_erase hv
      · have hul : l.getLast hlne = u := by
          have := List.getLast?_eq_getLast_of_ne_nil hlne
          rw [hllast] at this
          exact (Option.some_inj.mp this).symm
        rw [routeCost_append d0 d l hlne v, hul,
          dp_step d0 d hv h1, hinf, ← hlcost]
        push_cast
        ring

/-! ### Minimum of a list of extended rationals -/

theorem foldrMin_le {L : List (WithTop ℚ)} {a : WithTop ℚ} (h : a ∈ L) :
    L.foldr min ⊤ ≤ a := by
  induction L with
  | nil => simp at h
  | cons b t ih =>
    rcases List.mem_cons.mp h with hb | ht
    · rw [hb]
      exact min_le_left _ _
    · exact le_trans (min_le_right _ _) (ih ht)

theorem le_foldrMin {L : List (WithTop ℚ)} {b : WithTop ℚ}
    (h : ∀ a ∈ L, b ≤ a) : b ≤ L.foldr min ⊤ := by
  induction L with
  | nil => simp
  | cons c t ih =>
    exact le_min (h c (List.mem_cons_self c t)) (ih fun a ha => h a (List.mem_cons_of_mem c ha))

/-- A duplicate-free list of destination indices covering all of `Fin n`
is a permutation of `finRange n`. -/
theorem perm_finRange_of_nodup_toFinset {n : ℕ} {l : List (Fin n)}
    (hnd : l.Nodup) (hft : l.toFinset = Finset.univ) :
    List.Perm l (List.finRange n) := by
  rw [List.perm_ext_iff_of_nodup hnd (List.nodup_finRange n)]
  intro a
  constructor
  · intro _
    exact List.mem_finRange a
  · intro _
    rw [← List.mem_toFinset, hft]
    exact Finset.mem_univ a

/-- **C1.** For `n ≥ 2` destinations and a complete symmetric distance
matrix, `find_shortest_route` reports a total distance equal to the
minimum, over all permutations of the destinations, of
`d0 p₀ + Σᵢ d pᵢ pᵢ₊₁`; no return leg to the origin appears in the
minimised quantity. -/
theorem find_shortest_route_optimal (n : ℕ) (names : Fin n → String)
    (origin : String) (d0 dR : Fin n → ℚ) (d : Fin n → Fin n → ℚ)
    (hn : 2 ≤ n) (_hsym : ∀ u v, d u v = d v u) :
    (find_shortest_route n names origin d0 dR d).distance =
      ((List.finRange n).permutations.map
        (fun l => ((routeCost d0 d l : ℚ) : WithTop ℚ))).foldr min ⊤ := by
  have h0 : ¬ n = 0 := by omega
  have h1 : ¬ n = 1 := by omega
  have hdist : (find_shortest_route n names origin d0 dR d).distance =
      Finset.univ.inf fun v => dp d0 d v Finset.univ := by
    rw [find_shortest_route, dif_neg h0, dif_neg h1]
    rcases hfl : finsetLeast (Finset.univ.filter fun v =>
        dp d0 d v Finset.univ = Finset.univ.inf fun w => dp d0 d w Finset.univ) with _ | v <;>
      simp [hfl]
  rw [hdist]
  have hnis : Nonempty (Fin n) := ⟨⟨0, by omega⟩⟩
  apply le_antisymm
  · apply le_foldrMin
    intro a ha
    obtain ⟨l, hlmem, hla⟩ := List.mem_map.mp ha
    have hperm : List.Perm l (List.finRange n) := List.mem_permutations.mp hlmem
    have hlnd : l.Nodup := hperm.nodup_iff.mpr (List.nodup_finRange n)
    have hlf : l.toFinset = Finset.univ := by
      rw [List.toFinset_eq_of_perm l (List.finRange n) hperm, List.toFinset_finRange]
    have hlne : l ≠ [] := by
      intro h
      subst h
      have := hperm.length_eq
      simp only [List.length_nil, List.length_finRange] at this
      omega
    have hlast : l.getLast? = some (l.getLast hlne) :=
      List.getLast?_eq_getLast_of_ne_nil hlne
    calc (Finset.univ.inf fun w => dp d0 d w Finset.univ)
        ≤ dp d0 d (l.getLast hlne) Finset.univ :=
          Finset.inf_le (Finset.mem_univ (l.getLast hlne))
      _ = dp d0 d (l.getLast hlne) l.toFinset := by rw [hlf]
      _ ≤ ((routeCost d0 d l : ℚ) : WithTop ℚ) :=
          dp_le_routeCost d0 d l hlnd (l.getLast hlne) hlast
      _ = a := hla
  · obtain ⟨v0, _, hmin⟩ := Finset.exists_mem_eq_inf Finset.univ
      Finset.univ_nonempty (fun v => dp d0 d v Finset.univ)
    obtain ⟨l, hlnd, hlf, _, hlcost⟩ :=
      dp_attained d0 d Finset.univ v0 (Finset.mem_univ v0)
    have hlmem : l ∈ (List.finRange n).permutations :=
      List.mem_permutations.mpr (perm_finRange_of_nodup_toFinset hlnd hlf)
    have hamem : ((routeCost d0 d l : ℚ) : WithTop ℚ) ∈
        (List.finRange n).permutations.map
          (fun l => ((routeCost d0 d l : ℚ) : WithTop ℚ)) :=
      List.mem_map.mpr ⟨l, hlmem, rfl⟩
    rw [hmin, ← hlcost]
    exact foldrMin_le hamem

/-- Witness for C1 at a concrete instance with two destinations. -/
theorem find_shortest_route_optimal_witness :
    (find_shortest_route 2 (fun i => if i.val = 0 then "A" else "B") "H"
        (fun _ => 1) (fun _ => 1) (fun u v => if u = v then 0 else 2)).distance =
      ((List.finRange 2).permutations.map
        (fun l => ((routeCost (fun _ => (1 : ℚ)) (fun u v => if u = v then 0 else 2) l : ℚ) :
          WithTop ℚ))).foldr min ⊤ :=
  find_shortest_route_optimal 2 (fun i => if i.val = 0 then "A" else "B") "H"
    (fun _ => 1) (fun _ => 1) (fun u v => if u = v then 0 else 2)
    (by norm_num) (by decide)

/-- **C2.** For exactly one destination, `find_shortest_route` returns
the one-way path `[origin, destination]` but reports the round-trip
distance `distances[(home, dest)] + distances[(dest, home)]`; when the
matrix is symmetric this is twice the one-way distance. -/
theorem find_shortest_route_single (names : Fin 1 → String) (origin : String)
    (d0 dR : Fin 1 → ℚ) (d : Fin 1 → Fin 1 → ℚ) :
    (find_shortest_route 1 names origin d0 dR d).route = [origin, names 0] ∧
    (find_shortest_route 1 names origin d0 dR d).distance =
      ((d0 0 + dR 0 : ℚ) : WithTop ℚ) ∧
    (dR 0 = d0 0 →
      (find_shortest_route 1 names origin d0 dR d).distance =
        ((2 * d0 0 : ℚ) : WithTop ℚ)) := by
  refine ⟨?_, ?_, ?_⟩
  · rw [find_shortest_route, dif_neg (by norm_num : ¬ (1 : ℕ) = 0), dif_pos rfl]
    rfl
  · rw [find_shortest_route, dif_neg (by norm_num : ¬ (1 : ℕ) = 0), dif_pos rfl]
    rfl
  · intro h
    rw [find_shortest_route, dif_neg (by norm_num : ¬ (1 : ℕ) = 0), dif_pos rfl]
    show ((d0 0 + dR 0 : ℚ) : WithTop ℚ) = ((2 * d0 0 : ℚ) : WithTop ℚ)
    rw [h, two_mul]

/-- Witness for C2 at a concrete instance. -/
theorem find_shortest_route_single_witness :
    (find_shortest_route 1 (fun _ => "A") "H" (fun _ => 5) (fun _ => 5)
      (fun _ _ => 0)).distance = ((2 * 5 : ℚ) : WithTop ℚ) :=
  (find_shortest_route_single (fun _ => "A") "H" (fun _ => 5) (fun _ => 5)
    (fun _ _ => 0)).2.2 rfl


/-! ### The reconstructed path -/

theorem finsetLeast_eq_some {n : ℕ} {s : Finset (Fin n)} (h : s.Nonempty) :
    finsetLeast s = some (s.min' h) := by
  rw [finsetLeast, dif_pos h]

/-- When the predecessor set is nonempty, `bestPred` returns one of its
members. -/
theorem bestPred_some {n : ℕ} (d0 : Fin n → ℚ) (d : Fin n → Fin n → ℚ)
    {v : Fin n} {s : Finset (Fin n)} (hne : (s.erase v).Nonempty) :
    ∃ u, bestPred d0 d v s = some u ∧ u ∈ s.erase v := by
  obtain ⟨u0, hu0, hinf⟩ := Finset.exists_mem_eq_inf (s.erase v) hne
    (fun u => dp d0 d u (s.erase v) + ((d u v : ℚ) : WithTop ℚ))
  have hfil : ((s.erase v).filter fun u =>
      dp d0 d u (s.erase v) + ((d u v : ℚ) : WithTop ℚ) =
        (s.erase v).inf fun w => dp d0 d w (s.erase v) + ((d w v : ℚ) : WithTop ℚ)).Nonempty :=
    ⟨u0, Finset.mem_filter.mpr ⟨hu0, hinf.symm⟩⟩
  refine ⟨(Finset.filter (fun u =>
      dp d0 d u (s.erase v) + ((d u v : ℚ) : WithTop ℚ) =
        (s.erase v).inf fun w => dp d0 d w (s.erase v) + ((d w v : ℚ) : WithTop ℚ))
      (s.erase v)).min' hfil, ?_, ?_⟩
  · rw [bestPred]
    exact finsetLeast_eq_some hfil
  · exact (Finset.mem_filter.mp (Finset.min'_mem _ hfil)).1

/-- The reconstruction loop emits every destination of the state set
exactly once. -/
theorem backPath_spec {n : ℕ} (d0 : Fin n → ℚ) (d : Fin n → Fin n → ℚ)
    (s : Finset (Fin n)) :
    ∀ v ∈ s, (backPath d0 d v s).Nodup ∧ (backPath d0 d v s).toFinset = s := by
  induction s using Finset.strongInduction with
  | _ s ih =>
    intro v hv
    by_cases hne : (s.erase v).Nonempty
    · obtain ⟨u, hbp, humem⟩ := bestPred_some d0 d hne
      have hih := ih (s.erase v) (Finset.erase_ssubset hv) u humem
      have hunf : backPath d0 d v s = v :: backPath d0 d u (s.erase v) := by
        rw [backPath, dif_pos hv, hbp]
      rw [hunf]
      have hvnot : v ∉ backPath d0 d u (s.erase v) := by
        intro hmem
        have hx : v ∈ (backPath d0 d u (s.erase v)).toFinset := List.mem_toFinset.mpr hmem
        rw [hih.2] at hx
        exact Finset.not_mem_erase v s hx
      refine ⟨List.nodup_cons.mpr ⟨hvnot, hih.1⟩, ?_⟩
      rw [List.toFinset_cons, hih.2]
      exact Finset.insert_erase hv
    · have h1 : s.erase v = ∅ := Finset.not_nonempty_iff_eq_empty.mp hne
      have hsv : s = {v} := by
        apply Finset.eq_singleton_iff_unique_mem.mpr
        refine ⟨hv, fun x hx => ?_⟩
        by_contra hxv
        have : x ∈ s.erase v := Finset.mem_erase.mpr ⟨hxv, hx⟩
        rw [h1] at this
        exact absurd this (Finset.not_mem_empty x)
      have hnone : bestPred d0 d v s = none := by
        rw [bestPred, h1]
        rw [Finset.filter_empty, finsetLeast, dif_neg]
        exact Finset.not_nonempty_empty
      have hunf : backPath d0 d v s = [v] := by
        rw [backPath, dif_pos hv, hnone]
      rw [hunf, hsv]
      exact ⟨List.nodup_singleton v, by simp⟩

/-- **C4.** For `n ≥ 2` destinations the returned route is the origin
name followed by the destination names in some order, each destination
exactly once. -/
theorem find_shortest_route_path_perm (n : ℕ) (names : Fin n → String)
    (origin : String) (d0 dR : Fin n → ℚ) (d : Fin n → Fin n → ℚ)
    (hn : 2 ≤ n) (hinj : Function.Injective names)
    (ho : ∀ i, names i ≠ origin) :
    ∃ p : List (Fin n), List.Perm p (List.finRange n) ∧
      (find_shortest_route n names origin d0 dR d).route = origin :: p.map names ∧
      ∀ i : Fin n,
        ((find_shortest_route n names origin d0 dR d).route).count (names i) = 1 := by
  have h0 : ¬ n = 0 := by omega
  have h1 : ¬ n = 1 := by omega
  have hnis : Nonempty (Fin n) := ⟨⟨0, by omega⟩⟩
  obtain ⟨v0, hv0, hinf⟩ := Finset.exists_mem_eq_inf Finset.univ
    Finset.univ_nonempty (fun v => dp d0 d v Finset.univ)
  have hfil : (Finset.univ.filter fun v =>
      dp d0 d v Finset.univ = Finset.univ.inf fun w => dp d0 d w Finset.univ).Nonempty :=
    ⟨v0, Finset.mem_filter.mpr ⟨hv0, hinf.symm⟩⟩
  obtain ⟨vb, hvb⟩ : ∃ vb, vb = (Finset.univ.filter fun v =>
      dp d0 d v Finset.univ = Finset.univ.inf fun w =>
        dp d0 d w Finset.univ).min' hfil := ⟨_, rfl⟩
  have hroute : (find_shortest_route n names origin d0 dR d).route =
      origin :: ((backPath d0 d vb Finset.univ).reverse.map names) := by
    simp only [find_shortest_route, dif_neg h0, dif_neg h1]
    rw [finsetLeast_eq_some hfil, ← hvb]
  have hbp := backPath_spec d0 d Finset.univ vb (Finset.mem_univ vb)
  have hpnd : ((backPath d0 d vb Finset.univ).reverse).Nodup :=
    List.nodup_reverse.mpr hbp.1
  have hpf : ((backPath d0 d vb Finset.univ).reverse).toFinset = Finset.univ := by
    rw [List.toFinset_reverse]
    exact hbp.2
  refine ⟨_, perm_finRange_of_nodup_toFinset hpnd hpf, hroute, ?_⟩
  intro i
  rw [hroute, List.count_cons]
  have hne : ¬ (origin = names i) := fun h => (ho i) h.symm
  rw [List.count_map_of_injective _ names hinj i]
  have himem : i ∈ (backPath d0 d vb Finset.univ).reverse := by
    rw [← List.mem_toFinset, hpf]
    exact Finset.mem_univ i
  rw [List.count_eq_one_of_mem hpnd himem]
  simp [hne]

/-- Witness for C4 at a concrete instance with two destinations. -/
theorem find_shortest_route_path_perm_witness :
    ∃ p : List (Fin 2), List.Perm p (List.finRange 2) ∧
      (find_shortest_route 2 (fun i => if i.val = 0 then "A" else "B") "H"
        (fun _ => 1) (fun _ => 1) (fun u v => if u = v then 0 else 2)).route =
        "H" :: p.map (fun i => if i.val = 0 then "A" else "B") ∧
      ∀ i : Fin 2,
        ((find_shortest_route 2 (fun i => if i.val = 0 then "A" else "B") "H"
          (fun _ => 1) (fun _ => 1)
          (fun u v => if u = v then 0 else 2)).route).count
            (if i.val = 0 then "A" else "B") = 1 :=
  find_shortest_route_path_perm 2 (fun i => if i.val = 0 then "A" else "B") "H"
    (fun _ => 1) (fun _ => 1) (fun u v => if u = v then 0 else 2)
    (by norm_num) (by decide) (by decide)



/-! ### The symmetric distance dictionary -/

/-- Symmetry of a distances dictionary on off-diagonal keys. -/
def Symm (m : String × String → Option ℚ) : Prop :=
  ∀ a b : String, a ≠ b → m (a, b) = m (b, a)

/-- No self-pair key is present. -/
def NoSelf (m : String × String → Option ℚ) : Prop :=
  ∀ a : String, m (a, a) = none

theorem dinsert_self (m : String × String → Option ℚ) (k : String × String) (v : ℚ) :
    dinsert m k v k = some v := by
  simp [dinsert]

theorem dinsert_self_isSome (m : String × String → Option ℚ) (k : String × String) (v : ℚ) :
    ((dinsert m k v) k).isSome := by
  rw [dinsert_self]
  rfl

theorem dinsert_isSome_mono {m : String × String → Option ℚ} {k : String × String}
    (k' : String × String) (v : ℚ) (h : (m k).isSome) :
    ((dinsert m k' v) k).isSome := by
  rw [dinsert]
  by_cases hk : k = k' <;> simp [hk, h]

theorem dinsert_pair_symm {m : String × String → Option ℚ} (x y : String) (v : ℚ)
    (hs : Symm m) : Symm (dinsert (dinsert m (x, y) v) (y, x) v) := by
  intro a b hab
  simp only [dinsert]
  split_ifs with h1 h2 h3 h4 h5 h6 <;>
    first
      | rfl
      | exact hs a b hab
      | (exfalso; simp_all [Prod.ext_iff])

theorem dinsert_noself {m : String × String → Option ℚ} {x y : String} (v : ℚ)
    (hm : NoSelf m) (hxy : x ≠ y) : NoSelf (dinsert m (x, y) v) := by
  intro a
  rw [dinsert]
  have hne : ¬ ((a, a) = (x, y)) := by
    intro h
    rw [Prod.ext_iff] at h
    exact hxy (h.1.symm.trans h.2)
  rw [if_neg hne]
  exact hm a

/-- A fold whose step preserves presence of a key preserves it globally. -/
theorem foldl_isSome_mono {α : Type}
    (step : (String × String → Option ℚ) → α → (String × String → Option ℚ))
    (hmono : ∀ m x k, (m k).isSome → ((step m x) k).isSome)
    (L : List α) (k : String × String) :
    ∀ m0, ((m0 k).isSome) → ((L.foldl step m0) k).isSome := by
  induction L with
  | nil => intro m0 h; exact h
  | cons y t ih =>
    intro m0 h
    exact ih (step m0 y) (hmono m0 y k h)

/-- If some list element writes the key `k`, the key is present after
the fold. -/
theorem foldl_isSome_of_mem {α : Type}
    (step : (String × String → Option ℚ) → α → (String × String → Option ℚ))
    (hmono : ∀ m x k, (m k).isSome → ((step m x) k).isSome)
    (L : List α) (x : α) (hx : x ∈ L) (k : String × String)
    (hwrite : ∀ m, ((step m x) k).isSome) :
    ∀ m0, ((L.foldl step m0) k).isSome := by
  induction L with
  | nil => simp at hx
  | cons y t ih =>
    intro m0
    rcases List.mem_cons.mp hx with hxy | hxt
    · subst hxy
      exact foldl_isSome_mono step hmono t k (step m0 x) (hwrite m0)
    · exact ih hxt (step m0 y)

/-- A fold whose step preserves `Symm` preserves it globally. -/
theorem foldl_symm {α : Type}
    (step : (String × String → Option ℚ) → α → (String × String → Option ℚ))
    (hstep : ∀ m x, Symm m → Symm (step m x)) (L : List α) :
    ∀ m0, Symm m0 → Symm (L.foldl step m0) := by
  induction L with
  | nil => intro m0 h; exact h
  | cons y t ih =>
    intro m0 h
    exact ih (step m0 y) (hstep m0 y h)

/-- A fold whose step preserves `NoSelf` preserves it globally. -/
theorem foldl_noself {α : Type}
    (step : (String × String → Option ℚ) → α → (String × String → Option ℚ))
    (L : List α) (hstep : ∀ m, ∀ x ∈ L, NoSelf m → NoSelf (step m x)) :
    ∀ m0, NoSelf m0 → NoSelf (L.foldl step m0) := by
  induction L with
  | nil => intro m0 h; exact h
  | cons y t ih =>
    intro m0 h
    exact ih (fun m x hx => hstep m x (List.mem_cons_of_mem y hx)) (step m0 y)
      (hstep m0 y (List.mem_cons_self y t) h)

/-- Every unordered pair of distinct list elements occurs (in one of the
two orders) in `combos l`. -/
theorem combos_cover {α : Type} (l : List α) (a b : α)
    (ha : a ∈ l) (hb : b ∈ l) (hab : a ≠ b) :
    (a, b) ∈ combos l ∨ (b, a) ∈ combos l := by
  induction l with
  | nil => simp at ha
  | cons x t ih =>
    rcases List.mem_cons.mp ha with hax | hat
    · subst hax
      have hbt : b ∈ t := by
        rcases List.mem_cons.mp hb with hbx | hbt
        · exact absurd hbx.symm hab
        · exact hbt
      left
      rw [combos]
      exact List.mem_append_left _ (List.mem_map.mpr ⟨b, hbt, rfl⟩)
    · rcases List.mem_cons.mp hb with hbx | hbt
      · subst hbx
        right
        rw [combos]
        exact List.mem_append_left _ (List.mem_map.mpr ⟨a, hat, rfl⟩)
      · rcases ih hat hbt with h | h
        · left
          rw [combos]
          exact List.mem_append_right _ h
        · right
          rw [combos]
          exact List.mem_append_right _ h

/-- With duplicate-free names, every pair produced by `combos` has two
distinct names. -/
theorem combos_name_ne (l : List LocationRec)
    (hnd : (l.map LocationRec.name).Nodup) :
    ∀ p ∈ combos l, p.1.name ≠ p.2.name := by
  induction l with
  | nil => intro p hp; simp [combos] at hp
  | cons x t ih =>
    intro p hp
    rw [List.map_cons, List.nodup_cons] at hnd
    rw [combos] at hp
    rcases List.mem_append.mp hp with hmap | hrec
    · obtain ⟨y, hyt, hpy⟩ := List.mem_map.mp hmap
      subst hpy
      intro hne
      exact hnd.1 (hne ▸ List.mem_map.mpr ⟨y, hyt, rfl⟩)
    · exact ih hnd.2 p hrec

/-- **C8.** The dictionary built by `calculate_symmetric_distances`
has an entry for every pair of distinct location names among the home
and the relatives, and is symmetric on all off-diagonal keys. -/
theorem calculate_symmetric_distances_symm_total (gc : ℚ × ℚ → ℚ × ℚ → ℚ)
    (relatives : List LocationRec) (home : LocationRec) (a b : String)
    (ha : a ∈ home.name :: relatives.map LocationRec.name)
    (hb : b ∈ home.name :: relatives.map LocationRec.name) (hab : a ≠ b) :
    ((calculate_symmetric_distances gc relatives home) (a, b)).isSome ∧
    (calculate_symmetric_distances gc relatives home) (a, b) =
      (calculate_symmetric_distances gc relatives home) (b, a) := by
  have hmono1 : ∀ (m : String × String → Option ℚ) (p : LocationRec × LocationRec) k,
      (m k).isSome →
      ((dinsert (dinsert m (p.1.name, p.2.name)
          (gc (p.1.latitude, p.1.longitude) (p.2.latitude, p.2.longitude)))
        (p.2.name, p.1.name)
          (gc (p.1.latitude, p.1.longitude) (p.2.latitude, p.2.longitude))) k).isSome := by
    intro m p k h
    exact dinsert_isSome_mono _ _ (dinsert_isSome_mono _ _ h)
  have hmono2 : ∀ (m : String × String → Option ℚ) (r : LocationRec) k,
      (m k).isSome →
      ((dinsert (dinsert m (home.name, r.name)
          (gc (home.latitude, home.longitude) (r.latitude, r.longitude)))
        (r.name, home.name)
          (gc (home.latitude, home.longitude) (r.latitude, r.longitude))) k).isSome := by
    intro m r k h
    exact dinsert_isSome_mono _ _ (dinsert_isSome_mono _ _ h)
  constructor
  · -- presence of the key (a, b)
    rw [calculate_symmetric_distances]
    rcases List.mem_cons.mp ha with hah | har
    · -- a is the home name, so b is a relative name
      have hbr : b ∈ relatives.map LocationRec.name := by
        rcases List.mem_cons.mp hb with hbh | hbr
        · exact absurd (hah.trans hbh.symm) hab
        · exact hbr
      obtain ⟨rb, hrbm, hrbn⟩ := List.mem_map.mp hbr
      apply foldl_isSome_of_mem _ hmono2 relatives rb hrbm
      intro m
      subst hah
      rw [← hrbn]
      exact dinsert_isSome_mono _ _ (dinsert_self_isSome _ _ _)
    · rcases List.mem_cons.mp hb with hbh | hbr
      · -- b is the home name, a is a relative name
        obtain ⟨ra, hram, hran⟩ := List.mem_map.mp har
        apply foldl_isSome_of_mem _ hmono2 relatives ra hram
        intro m
        subst hbh
        rw [← hran]
        exact dinsert_self_isSome _ _ _
      · -- both are relative names: covered by the combinations loop
        obtain ⟨ra, hram, hran⟩ := List.mem_map.mp har
        obtain ⟨rb, hrbm, hrbn⟩ := List.mem_map.mp hbr
        have hrne : ra ≠ rb := by
          intro h
          exact hab (hran.symm.trans (h ▸ hrbn))
        apply foldl_isSome_mono _ hmono2
        rcases combos_cover relatives ra rb hram hrbm hrne with hc | hc
        · apply foldl_isSome_of_mem _ hmono1 (combos relatives) (ra, rb) hc
          intro m
          rw [← hran, ← hrbn]
          exact dinsert_isSome_mono _ _ (dinsert_self_isSome _ _ _)
        · apply foldl_isSome_of_mem _ hmono1 (combos relatives) (rb, ra) hc
          intro m
          rw [← hran, ← hrbn]
          exact dinsert_self_isSome _ _ _
  · -- symmetry
    have hsym : Symm (calculate_symmetric_distances gc relatives home) := by
      rw [calculate_symmetric_distances]
      apply foldl_symm _ (fun m r hm => dinsert_pair_symm home.name r.name _ hm)
      apply foldl_symm _ (fun m p hm => dinsert_pair_symm p.1.name p.2.name _ hm)
      intro x y _
      rfl
    exact hsym a b hab

/-- Witness for C8 at a concrete instance. -/
theorem calculate_symmetric_distances_symm_total_witness :
    ((calculate_symmetric_distances (fun _ _ => 7)
      [⟨"A", 1, 1⟩, ⟨"B", 2, 2⟩] ⟨"H", 0, 0⟩) ("A", "B")).isSome ∧
    (calculate_symmetric_distances (fun _ _ => 7)
      [⟨"A", 1, 1⟩, ⟨"B", 2, 2⟩] ⟨"H", 0, 0⟩) ("A", "B") =
      (calculate_symmetric_distances (fun _ _ => 7)
        [⟨"A", 1, 1⟩, ⟨"B", 2, 2⟩] ⟨"H", 0, 0⟩) ("B", "A") :=
  calculate_symmetric_distances_symm_total (fun _ _ => 7)
    [⟨"A", 1, 1⟩, ⟨"B", 2, 2⟩] ⟨"H", 0, 0⟩ "A" "B"
    (by decide) (by decide) (by decide)

/-- **C9 (amended).** With pairwise-distinct location names, the
dictionary built by `calculate_symmetric_distances` contains no entry at
any self-pair `(a, a)`: a query at a self-pair finds nothing (a Python
`KeyError`), rather than returning `0`. -/
theorem calculate_symmetric_distances_self_none (gc : ℚ × ℚ → ℚ × ℚ → ℚ)
    (relatives : List LocationRec) (home : LocationRec)
    (hnd : (relatives.map LocationRec.name).Nodup)
    (hh : home.name ∉ relatives.map LocationRec.name) :
    ∀ a : String, (calculate_symmetric_distances gc relatives home) (a, a) = none := by
  intro a
  have h1 : NoSelf (calculate_symmetric_distances gc relatives home) := by
    rw [calculate_symmetric_distances]
    apply foldl_noself
    · intro m r hr hm
      have hne : home.name ≠ r.name := by
        intro h
        exact hh (h ▸ List.mem_map.mpr ⟨r, hr, rfl⟩)
      exact dinsert_noself _ (dinsert_noself _ hm hne) hne.symm
    · apply foldl_noself
      · intro m p hp hm
        have hne := combos_name_ne relatives hnd p hp
        exact dinsert_noself _ (dinsert_noself _ hm hne) hne.symm
      · intro x
        rfl
  exact h1 a

/-- Witness for C9 at a concrete instance. -/
theorem calculate_symmetric_distances_self_none_witness :
    (calculate_symmetric_distances (fun _ _ => 0)
      [⟨"A", 1, 1⟩] ⟨"H", 0, 0⟩) ("A", "A") = none :=
  calculate_symmetric_distances_self_none (fun _ _ => 0)
    [⟨"A", 1, 1⟩] ⟨"H", 0, 0⟩ (by decide) (by decide) "A"

/-- Counterexample for C9 as stated: on a concrete one-destination
instance the matrix query at a self-pair returns no entry, not `0`. -/
theorem calculate_symmetric_distances_self_counterexample :
    (calculate_symmetric_distances (fun _ _ => 0)
      [⟨"A", 1, 1⟩] ⟨"H", 0, 0⟩) ("H", "H") = none ∧
    (calculate_symmetric_distances (fun _ _ => 0)
      [⟨"A", 1, 1⟩] ⟨"H", 0, 0⟩) ("A", "A") = none ∧
    ¬ ((calculate_symmetric_distances (fun _ _ => 0)
      [⟨"A", 1, 1⟩] ⟨"H", 0, 0⟩) ("A", "A") = some 0) := by
  refine ⟨?_, ?_, ?_⟩ <;> decide



/-! ## Embedding of `src/modes.py`

Times and costs are floats in the source; they are modelled as real
numbers because the TOPSIS ranking takes square roots.  Python
exceptions are modelled with `Except`. -/

/-- A transport-mode record from the catalog. -/
structure TransportMode where
  mode : String
  speed_kmh : ℝ
  cost_per_km : ℝ
  transfer_time_min : ℝ

/-- One entry of the list built by `calculate_mode_details`. -/
structure ModeDetail where
  mode : String
  travel_time : ℝ
  transfer_time : ℝ
  total_time : ℝ
  cost : ℝ

/-- Default value used for out-of-range list reads (the claims only ever
read in range). -/
noncomputable def junkMode : ModeDetail := ⟨"", 0, 0, 0, 0⟩

/-- `calculate_mode_details` from `src/modes.py` (the `from_node` and
`to_node` arguments are used only for logging and are dropped): per
mode, `travel_time = distance / speed * 60`, `total_time = travel_time +
transfer_time`, `cost = distance * cost_per_km`, in catalog order.  The
claims under verification concern catalogs with all fields present, so
the `KeyError` branch does not arise. -/
noncomputable def calculate_mode_details (distance : ℝ)
    (transport_modes : List TransportMode) : List ModeDetail :=
  transport_modes.map fun m =>
    let travel_time := distance / m.speed_kmh * 60
    { mode := m.mode
      travel_time := travel_time
      transfer_time := m.transfer_time_min
      total_time := travel_time + m.transfer_time_min
      cost := distance * m.cost_per_km }

/-- The Python sort key `lambda x: (x["total_time"], x["cost"])` as a
total preorder: lexicographic, total time first. -/
def timeLe (a b : ModeDetail) : Prop :=
  a.total_time < b.total_time ∨ (a.total_time = b.total_time ∧ a.cost ≤ b.cost)

/-- The Python sort key `lambda x: (x["cost"], x["total_time"])` as a
total preorder: lexicographic, cost first. -/
def costLe (a b : ModeDetail) : Prop :=
  a.cost < b.cost ∨ (a.cost = b.cost ∧ a.total_time ≤ b.total_time)

noncomputable instance : DecidableRel timeLe := fun a b => by
  unfold timeLe
  infer_instance

noncomputable instance : DecidableRel costLe := fun a b => by
  unfold costLe
  infer_instance

instance : IsTotal ModeDetail timeLe := by
  constructor
  intro a b
  rcases lt_trichotomy a.total_time b.total_time with h | h | h
  · exact Or.inl (Or.inl h)
  · rcases le_total a.cost b.cost with hc | hc
    · exact Or.inl (Or.inr ⟨h, hc⟩)
    · exact Or.inr (Or.inr ⟨h.symm, hc⟩)
  · exact Or.inr (Or.inl h)

instance : IsTrans ModeDetail timeLe := by
  constructor
  intro a b c hab hbc
  rcases hab with h1 | ⟨h1, h1c⟩
  · rcases hbc with h2 | ⟨h2, _⟩
    · exact Or.inl (h1.trans h2)
    · exact Or.inl (h2 ▸ h1)
  · rcases hbc with h2 | ⟨h2, h2c⟩
    · exact Or.inl (h1 ▸ h2)
    · exact Or.inr ⟨h1.trans h2, h1c.trans h2c⟩

instance : IsTotal ModeDetail costLe := by
  constructor
  intro a b
  rcases lt_trichotomy a.cost b.cost with h | h | h
  · exact Or.inl (Or.inl h)
  · rcases le_total a.total_time b.total_time with hc | hc
    · exact Or.inl (Or.inr ⟨h, hc⟩)
    · exact Or.inr (Or.inr ⟨h.symm, hc⟩)
  · exact Or.inr (Or.inl h)

instance : IsTrans ModeDetail costLe := by
  constructor
  intro a b c hab hbc
  rcases hab with h1 | ⟨h1, h1c⟩
  · rcases hbc with h2 | ⟨h2, _⟩
    · exact Or.inl (h1.trans h2)
    · exact Or.inl (h2 ▸ h1)
  · rcases hbc with h2 | ⟨h2, h2c⟩
    · exact Or.inl (h1 ▸ h2)
    · exact Or.inr ⟨h1.trans h2, h1c.trans h2c⟩

/-! ### TOPSIS -/

/-- Euclidean norm of a column, `np.sqrt(np.sum(xs ** 2))`. -/
noncomputable def normDen (xs : List ℝ) : ℝ :=
  Real.sqrt (xs.map fun x => x ^ 2).sum

/-- `np.min` of a nonempty list (the empty case never arises in the
claims; numpy errors on it). -/
noncomputable def listMin : List ℝ → ℝ
  | [] => 0
  | a :: t => t.foldl min a

/-- `np.max` of a nonempty list. -/
noncomputable def listMax : List ℝ → ℝ
  | [] => 0
  | a :: t => t.foldl max a

/-- Weighted normalised time of one candidate within the set `l`. -/
noncomputable def wTime (l : List ModeDetail) (tw : ℝ) (m : ModeDetail) : ℝ :=
  m.total_time / normDen (l.map ModeDetail.total_time) * tw

/-- Weighted normalised cost of one candidate within the set `l`. -/
noncomputable def wCost (l : List ModeDetail) (cw : ℝ) (m : ModeDetail) : ℝ :=
  m.cost / normDen (l.map ModeDetail.cost) * cw

/-- Ideal point, per-column minimum of the weighted normalised values. -/
noncomputable def idealT (l : List ModeDetail) (tw : ℝ) : ℝ :=
  listMin (l.map (wTime l tw))

noncomputable def idealC (l : List ModeDetail) (cw : ℝ) : ℝ :=
  listMin (l.map (wCost l cw))

/-- Anti-ideal point, per-column maximum. -/
noncomputable def antiT (l : List ModeDetail) (tw : ℝ) : ℝ :=
  listMax (l.map (wTime l tw))

noncomputable def antiC (l : List ModeDetail) (cw : ℝ) : ℝ :=
  listMax (l.map (wCost l cw))

/-- Distance of a candidate to the ideal point. -/
noncomputable def dPos (l : List ModeDetail) (tw cw : ℝ) (m : ModeDetail) : ℝ :=
  Real.sqrt ((wTime l tw m - idealT l tw) ^ 2 + (wCost l cw m - idealC l cw) ^ 2)

/-- Distance of a candidate to the anti-ideal point. -/
noncomputable def dNeg (l : List ModeDetail) (tw cw : ℝ) (m : ModeDetail) : ℝ :=
  Real.sqrt ((wTime l tw m - antiT l tw) ^ 2 + (wCost l cw m - antiC l cw) ^ 2)

/-- The TOPSIS closeness coefficient of one candidate:
`d_neg / (d_pos + d_neg + 1e-6)`. -/
noncomputable def topsisScore (l : List ModeDetail) (tw cw : ℝ) (m : ModeDetail) : ℝ :=
  dNeg l tw cw m / (dPos l tw cw m + dNeg l tw cw m + 1e-6)

/-- Descending order by TOPSIS score.  `np.argsort` leaves the relative
order of candidates with equal scores unspecified; the embedding fixes
it as the stable descending order. -/
def scoreGe (l : List ModeDetail) (tw cw : ℝ) (a b : ModeDetail) : Prop :=
  topsisScore l tw cw b ≤ topsisScore l tw cw a

noncomputable instance (l : List ModeDetail) (tw cw : ℝ) :
    DecidableRel (scoreGe l tw cw) := fun a b => by
  unfold scoreGe
  infer_instance

/-- `topsis_evaluation` from `src/modes.py`: the candidate list sorted
by descending closeness score. -/
noncomputable def topsis_evaluation (mode_details : List ModeDetail) (tw cw : ℝ) :
    List ModeDetail :=
  List.insertionSort (scoreGe mode_details tw cw) mode_details

/-! ### Route preference generation -/

/-- One leg of a generated itinerary: the dictionary
`{"from", "to", "distance", "selected_mode"}`. -/
structure Segment where
  from_node : String
  to_node : String
  distance : ℝ
  selected_mode : ModeDetail

noncomputable def junkSeg : Segment := ⟨"", "", 0, junkMode⟩

/-- Python exceptions raised inside the generators. -/
inductive ModesErr where
  | invalidCriterion : ModesErr
  | indexError : ModesErr
deriving DecidableEq

/-- The consecutive pairs of a route. -/
def legsOf (route : List String) : List (String × String) :=
  route.zip route.tail

/-- A Python `for` loop that can raise: collect the results or stop at
the first error. -/
def exceptMap {α β : Type} (f : α → Except ModesErr β) : List α → Except ModesErr (List β)
  | [] => .ok []
  | a :: l => (f a).bind fun b => (exceptMap f l).bind fun bs => .ok (b :: bs)

/-- `sorted_modes[i] if i < len(sorted_modes) else sorted_modes[-1]`:
the rank-`i` element, clamped to the last; `IndexError` on an empty
list. -/
noncomputable def pickRank (sorted : List ModeDetail) (i : ℕ) : Except ModesErr ModeDetail :=
  if i < sorted.length then .ok (sorted.getD i junkMode)
  else
    match sorted.getLast? with
    | some m => .ok m
    | none => .error .indexError

/-- `generate_single_route` from `src/modes.py`. -/
noncomputable def generate_single_route (route : List String)
    (dists : String × String → ℝ) (modes : List TransportMode)
    (preference : String) : Except ModesErr (List (List Segment)) :=
  exceptMap
    (fun i =>
      exceptMap
        (fun leg =>
          (if preference = "least_time" then
            Except.ok (List.insertionSort timeLe (calculate_mode_details (dists leg) modes))
          else if preference = "least_cost" then
            Except.ok (List.insertionSort costLe (calculate_mode_details (dists leg) modes))
          else (Except.error ModesErr.invalidCriterion :
            Except ModesErr (List ModeDetail))).bind fun sorted =>
          (pickRank sorted i).bind fun best =>
          Except.ok { from_node := leg.1, to_node := leg.2, distance := dists leg,
                      selected_mode := best })
        (legsOf route))
    (List.range 3)

/-- The fixed weight pairs of `calculate_balanced_route`. -/
noncomputable def weight_combinations : List (ℝ × ℝ) :=
  [(0.75, 0.25), (0.80, 0.2), (0.85, 0.15)]

/-- One leg of a balanced itinerary: evaluate all modes, rank by TOPSIS,
take the top mode (`best_modes[0]`; `IndexError` on an empty catalog). -/
noncomputable def balancedSeg (dists : String × String → ℝ)
    (modes : List TransportMode) (tw cw : ℝ) (leg : String × String) :
    Except ModesErr Segment :=
  match (topsis_evaluation (calculate_mode_details (dists leg) modes) tw cw).head? with
  | none => .error .indexError
  | some best =>
      .ok { from_node := leg.1, to_node := leg.2, distance := dists leg,
            selected_mode := best }

/-- The per-leg mode-name signature used for de-duplication. -/
def sigOf (segs : List Segment) : List String :=
  segs.map fun s => s.selected_mode.mode

/-- First-occurrence de-duplication by signature (`seen_paths` set +
append loop). -/
def dedupSigAux (seen : List (List String)) : List (List Segment) → List (List Segment)
  | [] => []
  | x :: xs =>
    if sigOf x ∈ seen then dedupSigAux seen xs
    else x :: dedupSigAux (sigOf x :: seen) xs

def dedupSig (l : List (List Segment)) : List (List Segment) :=
  dedupSigAux [] l

/-- `calculate_balanced_route` from `src/modes.py`. -/
noncomputable def calculate_balanced_route (route : List String)
    (dists : String × String → ℝ) (modes : List TransportMode) :
    Except ModesErr (List (List Segment)) :=
  (exceptMap
    (fun wc => exceptMap (balancedSeg dists modes wc.1 wc.2) (legsOf route))
    weight_combinations).bind fun all =>
  Except.ok (if (dedupSig all).length < 3 then all.take 3 else dedupSig all)

/-- `calculate_route_preferences` from `src/modes.py`: dispatch on the
preference string; any unrecognised string raises `ValueError`. -/
noncomputable def calculate_route_preferences (route : List String)
    (dists : String × String → ℝ) (modes : List TransportMode)
    (preference : String) : Except ModesErr (List (List Segment)) :=
  if preference = "balanced_topsis" then calculate_balanced_route route dists modes
  else if preference = "least_time" then generate_single_route route dists modes preference
  else if preference = "least_cost" then generate_single_route route dists modes preference
  else .error .invalidCriterion



/-! ### TOPSIS score bounds (C7) -/

/-- **C7.** For candidate sets with strictly positive total times and
costs, every TOPSIS closeness score `d_neg / (d_pos + d_neg + 1e-6)`
lies in `[0, 1]`; and for a single-candidate set the candidate scores
exactly `0` (ideal = anti-ideal = the candidate). -/
theorem topsis_score_bounds (l : List ModeDetail) (tw cw : ℝ)
    (_hpos : ∀ m ∈ l, 0 < m.total_time ∧ 0 < m.cost) :
    (∀ m ∈ l, 0 ≤ topsisScore l tw cw m ∧ topsisScore l tw cw m ≤ 1) ∧
    (∀ m : ModeDetail, topsisScore [m] tw cw m = 0) := by
  constructor
  · intro m _
    have hdp : 0 ≤ dPos l tw cw m := Real.sqrt_nonneg _
    have hdn : 0 ≤ dNeg l tw cw m := Real.sqrt_nonneg _
    have hden : 0 < dPos l tw cw m + dNeg l tw cw m + 1e-6 := by
      have he : (0 : ℝ) < 1e-6 := by norm_num
      linarith
    constructor
    · exact div_nonneg hdn hden.le
    · rw [topsisScore, div_le_one hden]
      linarith
  · intro m
    have hanT : antiT [m] tw = wTime [m] tw m := rfl
    have hanC : antiC [m] cw = wCost [m] cw m := rfl
    have h1 : dNeg [m] tw cw m = 0 := by
      rw [dNeg, hanT, hanC]
      simp
    rw [topsisScore, h1, zero_div]

/-- Witness for C7 at a concrete one-candidate instance. -/
theorem topsis_score_bounds_witness :
    (∀ m ∈ [(⟨"Bus", 15, 5, 20, 20⟩ : ModeDetail)],
      0 ≤ topsisScore [⟨"Bus", 15, 5, 20, 20⟩] 0.75 0.25 m ∧
      topsisScore [⟨"Bus", 15, 5, 20, 20⟩] 0.75 0.25 m ≤ 1) ∧
    (∀ m : ModeDetail, topsisScore [m] 0.75 0.25 m = 0) :=
  topsis_score_bounds [⟨"Bus", 15, 5, 20, 20⟩] 0.75 0.25 (by
    intro m hm
    rw [List.mem_singleton] at hm
    subst hm
    constructor <;> norm_num)

/-! ### The alternative generators (C3, C5, C6, C10) -/

/-- A loop over a list whose body never raises returns the list of the
results. -/
theorem exceptMap_eq_map {α β : Type} (f : α → Except ModesErr β) (g : α → β)
    (l : List α) (h : ∀ a ∈ l, f a = .ok (g a)) :
    exceptMap f l = .ok (l.map g) := by
  induction l with
  | nil => rfl
  | cons a t ih =>
    rw [exceptMap, h a (List.mem_cons_self a t),
      ih fun x hx => h x (List.mem_cons_of_mem a hx)]
    rfl

/-- The sorted candidate list used by `generate_single_route` for a
valid single-key preference. -/
noncomputable def sortFor (preference : String) (details : List ModeDetail) :
    List ModeDetail :=
  if preference = "least_time" then List.insertionSort timeLe details
  else List.insertionSort costLe details

/-- The segment `generate_single_route` builds for alternative `i` and
one leg: the rank-`i` mode of the sorted evaluations, clamped to the
last rank. -/
noncomputable def singleSeg (dists : String × String → ℝ)
    (modes : List TransportMode) (preference : String) (i : ℕ)
    (leg : String × String) : Segment :=
  { from_node := leg.1
    to_node := leg.2
    distance := dists leg
    selected_mode := (sortFor preference (calculate_mode_details (dists leg) modes)).getD
      (min i ((sortFor preference (calculate_mode_details (dists leg) modes)).length - 1))
      junkMode }

theorem sortFor_length (preference : String) (dist : ℝ)
    (modes : List TransportMode) :
    (sortFor preference (calculate_mode_details dist modes)).length = modes.length := by
  rw [sortFor]
  split_ifs
  · rw [(List.perm_insertionSort timeLe _).length_eq, calculate_mode_details,
      List.length_map]
  · rw [(List.perm_insertionSort costLe _).length_eq, calculate_mode_details,
      List.length_map]

theorem pickRank_eq (L : List ModeDetail) (i : ℕ) (hL : L ≠ []) :
    pickRank L i = .ok (L.getD (min i (L.length - 1)) junkMode) := by
  have hlen : 0 < L.length := List.length_pos.mpr hL
  by_cases hi : i < L.length
  · rw [pickRank, if_pos hi]
    congr 2
    omega
  · rw [pickRank, if_neg hi, List.getLast?_eq_getLast_of_ne_nil hL]
    rw [List.getLast_eq_getElem, min_eq_right (by omega : L.length - 1 ≤ i),
      List.getD_eq_getElem?_getD, List.getElem?_eq_getElem (by omega : L.length - 1 < L.length)]
    rfl

theorem getD_range_of_lt {j n : ℕ} (hj : j < n) (dA : ℕ) :
    (List.range n).getD j dA = j := by
  rw [List.getD_eq_getElem?_getD, List.getElem?_range hj]
  rfl

theorem getD_map_of_lt {α β : Type} (f : α → β) (l : List α) (j : ℕ)
    (hj : j < l.length) (dA : α) (dB : β) :
    (l.map f).getD j dB = f (l.getD j dA) := by
  rw [List.getD_eq_getElem?_getD, List.getElem?_map, List.getElem?_eq_getElem hj,
    List.getD_eq_getElem?_getD, List.getElem?_eq_getElem hj]
  rfl

/-- For a valid single-key preference and nonempty catalog,
`generate_single_route` returns, for each `i < 3`, the itinerary taking
at every leg the rank-`i` mode of that leg's sorted evaluations. -/
theorem generate_single_route_eq (route : List String)
    (dists : String × String → ℝ) (modes : List TransportMode)
    (preference : String)
    (hpref : preference = "least_time" ∨ preference = "least_cost")
    (hm : modes ≠ []) :
    generate_single_route route dists modes preference =
      .ok ((List.range 3).map fun i =>
        (legsOf route).map (singleSeg dists modes preference i)) := by
  rw [generate_single_route]
  apply exceptMap_eq_map
  intro i _
  apply exceptMap_eq_map
  intro leg _
  have hsorted :
      (if preference = "least_time" then
        Except.ok (List.insertionSort timeLe (calculate_mode_details (dists leg) modes))
      else if preference = "least_cost" then
        Except.ok (List.insertionSort costLe (calculate_mode_details (dists leg) modes))
      else (Except.error ModesErr.invalidCriterion :
        Except ModesErr (List ModeDetail))) =
      Except.ok (sortFor preference (calculate_mode_details (dists leg) modes)) := by
    rcases hpref with h | h <;> subst h
    · rw [if_pos rfl, sortFor, if_pos rfl]
    · rw [if_neg (by decide), if_pos rfl, sortFor, if_neg (by decide)]
  rw [hsorted]
  have hLne : sortFor preference (calculate_mode_details (dists leg) modes) ≠ [] := by
    intro h
    have hlen := sortFor_length preference (dists leg) modes
    rw [h] at hlen
    simp only [List.length_nil] at hlen
    exact hm (List.length_eq_zero.mp hlen.symm)
  simp only [Except.bind]
  rw [pickRank_eq _ i hLne]
  rfl

/-- **C5.** For `least_time` / `least_cost`, a nonempty catalog, each
`i < 3` and each leg `j`: the generator succeeds, returns exactly 3
alternatives each covering every leg, and alternative `i` assigns to
leg `j` the mode at rank `min i (last)` of that leg's evaluations sorted
ascending by the criterion's primary key with the other metric as
tie-break; the sorted list is a permutation of the evaluations and is
sorted by the corresponding lexicographic relation. -/
theorem generate_single_route_rank (route : List String)
    (dists : String × String → ℝ) (modes : List TransportMode)
    (preference : String)
    (hpref : preference = "least_time" ∨ preference = "least_cost")
    (hm : modes ≠ []) (i j : ℕ) (hi : i < 3) (hj : j < (legsOf route).length) :
    ∃ alts, generate_single_route route dists modes preference = .ok alts ∧
      alts.length = 3 ∧
      (∀ k, k < 3 → (alts.getD k []).length = (legsOf route).length) ∧
      ((alts.getD i []).getD j junkSeg).selected_mode =
        (sortFor preference (calculate_mode_details
            (dists ((legsOf route).getD j ("", ""))) modes)).getD
          (min i ((sortFor preference (calculate_mode_details
            (dists ((legsOf route).getD j ("", ""))) modes)).length - 1)) junkMode ∧
      List.Perm
        (sortFor preference (calculate_mode_details
          (dists ((legsOf route).getD j ("", ""))) modes))
        (calculate_mode_details (dists ((legsOf route).getD j ("", ""))) modes) ∧
      (preference = "least_time" →
        List.Sorted timeLe (sortFor preference (calculate_mode_details
          (dists ((legsOf route).getD j ("", ""))) modes))) ∧
      (preference = "least_cost" →
        List.Sorted costLe (sortFor preference (calculate_mode_details
          (dists ((legsOf route).getD j ("", ""))) modes))) := by
  refine ⟨_, generate_single_route_eq route dists modes preference hpref hm,
    ?_, ?_, ?_, ?_, ?_, ?_⟩
  · rw [List.length_map, List.length_range]
  · intro k hk
    rw [getD_map_of_lt _ _ k (by simpa using hk) 0 [], List.length_map]
  · rw [getD_map_of_lt _ _ i (by simpa using hi) 0 [], getD_range_of_lt hi,
      getD_map_of_lt _ _ j hj ("", "") junkSeg]
    rfl
  · rw [sortFor]
    split_ifs
    · exact List.perm_insertionSort timeLe _
    · exact List.perm_insertionSort costLe _
  · intro h
    subst h
    rw [sortFor, if_pos rfl]
    exact List.sorted_insertionSort timeLe _
  · intro h
    subst h
    rw [sortFor, if_neg (by decide)]
    exact List.sorted_insertionSort costLe _

/-- Witness for C5 at a concrete instance. -/
theorem generate_single_route_rank_witness :
    ∃ alts, generate_single_route ["A", "B"] (fun _ => 1)
        [⟨"Bus", 40, 2, 5⟩] "least_time" = .ok alts ∧
      alts.length = 3 ∧
      (∀ k, k < 3 → (alts.getD k []).length = (legsOf ["A", "B"]).length) ∧
      ((alts.getD 0 []).getD 0 junkSeg).selected_mode =
        (sortFor "least_time" (calculate_mode_details
            ((fun _ => (1 : ℝ)) ((legsOf ["A", "B"]).getD 0 ("", "")))
            [⟨"Bus", 40, 2, 5⟩])).getD
          (min 0 ((sortFor "least_time" (calculate_mode_details
            ((fun _ => (1 : ℝ)) ((legsOf ["A", "B"]).getD 0 ("", "")))
            [⟨"Bus", 40, 2, 5⟩])).length - 1)) junkMode ∧
      List.Perm
        (sortFor "least_time" (calculate_mode_details
          ((fun _ => (1 : ℝ)) ((legsOf ["A", "B"]).getD 0 ("", "")))
          [⟨"Bus", 40, 2, 5⟩]))
        (calculate_mode_details
          ((fun _ => (1 : ℝ)) ((legsOf ["A", "B"]).getD 0 ("", "")))
          [⟨"Bus", 40, 2, 5⟩]) ∧
      ("least_time" = "least_time" →
        List.Sorted timeLe (sortFor "least_time" (calculate_mode_details
          ((fun _ => (1 : ℝ)) ((legsOf ["A", "B"]).getD 0 ("", "")))
          [⟨"Bus", 40, 2, 5⟩]))) ∧
      ("least_time" = "least_cost" →
        List.Sorted costLe (sortFor "least_time" (calculate_mode_details
          ((fun _ => (1 : ℝ)) ((legsOf ["A", "B"]).getD 0 ("", "")))
          [⟨"Bus", 40, 2, 5⟩]))) :=
  generate_single_route_rank ["A", "B"] (fun _ => 1) [⟨"Bus", 40, 2, 5⟩]
    "least_time" (Or.inl rfl) (List.cons_ne_nil _ _) 0 0
    (by norm_num) (by decide)



/-- The three balanced itineraries before de-duplication: one per weight
pair, taking at every leg the TOPSIS top-ranked mode under that pair. -/
noncomputable def specBalancedAll (route : List String)
    (dists : String × String → ℝ) (modes : List TransportMode) :
    List (List Segment) :=
  weight_combinations.map fun wc =>
    (legsOf route).map fun leg =>
      { from_node := leg.1, to_node := leg.2, distance := dists leg,
        selected_mode := (topsis_evaluation
          (calculate_mode_details (dists leg) modes) wc.1 wc.2).headD junkMode }

theorem topsis_evaluation_ne_nil (dist : ℝ) (modes : List TransportMode)
    (tw cw : ℝ) (hm : modes ≠ []) :
    topsis_evaluation (calculate_mode_details dist modes) tw cw ≠ [] := by
  intro h
  have hlen := (List.perm_insertionSort
    (scoreGe (calculate_mode_details dist modes) tw cw)
    (calculate_mode_details dist modes)).length_eq
  rw [topsis_evaluation] at h
  rw [h, List.length_nil, calculate_mode_details, List.length_map] at hlen
  exact hm (List.length_eq_zero.mp hlen.symm)

theorem balancedSeg_eq (dists : String × String → ℝ)
    (modes : List TransportMode) (tw cw : ℝ) (leg : String × String)
    (hm : modes ≠ []) :
    balancedSeg dists modes tw cw leg = .ok
      { from_node := leg.1, to_node := leg.2, distance := dists leg,
        selected_mode := (topsis_evaluation
          (calculate_mode_details (dists leg) modes) tw cw).headD junkMode } := by
  have hne := topsis_evaluation_ne_nil (dists leg) modes tw cw hm
  have hh : (topsis_evaluation (calculate_mode_details (dists leg) modes) tw cw).head? =
      some ((topsis_evaluation (calculate_mode_details (dists leg) modes) tw cw).headD
        junkMode) := by
    rcases hE : topsis_evaluation (calculate_mode_details (dists leg) modes) tw cw with
      _ | ⟨b, t⟩
    · exact absurd hE hne
    · rfl
  simp only [balancedSeg, hh]

theorem dedupSigAux_length_le (seen : List (List String))
    (l : List (List Segment)) :
    (dedupSigAux seen l).length ≤ l.length := by
  induction l generalizing seen with
  | nil => exact Nat.le_refl 0
  | cons x xs ih =>
    rw [dedupSigAux]
    split_ifs
    · exact Nat.le_succ_of_le (ih seen)
    · exact Nat.succ_le_succ (ih (sigOf x :: seen))

theorem specBalancedAll_length (route : List String)
    (dists : String × String → ℝ) (modes : List TransportMode) :
    (specBalancedAll route dists modes).length = 3 := by
  rw [specBalancedAll, List.length_map, weight_combinations]
  rfl

/-- **C6.** For the balanced criterion, one itinerary is produced per
weight pair `(0.75, 0.25)`, `(0.80, 0.2)`, `(0.85, 0.15)` by taking at
every leg the TOPSIS top-ranked mode under that pair; the three
itineraries are then de-duplicated by their sequence-of-mode-names
signature, and when fewer than 3 distinct signatures remain the full
un-deduplicated list truncated to 3 is returned instead. -/
theorem calculate_balanced_route_eq (route : List String)
    (dists : String × String → ℝ) (modes : List TransportMode)
    (hm : modes ≠ []) :
    calculate_balanced_route route dists modes =
      .ok (if (dedupSig (specBalancedAll route dists modes)).length < 3
           then (specBalancedAll route dists modes).take 3
           else dedupSig (specBalancedAll route dists modes)) ∧
    (specBalancedAll route dists modes).length = 3 ∧
    ∀ k, k < 3 → ∀ j, j < (legsOf route).length →
      (((specBalancedAll route dists modes).getD k []).getD j junkSeg).selected_mode =
        (topsis_evaluation (calculate_mode_details
            (dists ((legsOf route).getD j ("", ""))) modes)
          (weight_combinations.getD k (0, 0)).1
          (weight_combinations.getD k (0, 0)).2).headD junkMode := by
  refine ⟨?_, specBalancedAll_length route dists modes, ?_⟩
  · rw [calculate_balanced_route]
    have hall : exceptMap
        (fun wc => exceptMap (balancedSeg dists modes wc.1 wc.2) (legsOf route))
        weight_combinations = .ok (specBalancedAll route dists modes) := by
      apply exceptMap_eq_map
      intro wc _
      apply exceptMap_eq_map
      intro leg _
      exact balancedSeg_eq dists modes wc.1 wc.2 leg hm
    rw [hall]
    rfl
  · intro k hk j hj
    have hkw : k < weight_combinations.length := by
      rw [weight_combinations]
      simpa using hk
    rw [specBalancedAll, getD_map_of_lt _ weight_combinations k hkw (0, 0) [],
      getD_map_of_lt _ (legsOf route) j hj ("", "") junkSeg]

/-- Witness for C6 at a concrete instance. -/
theorem calculate_balanced_route_eq_witness :
    calculate_balanced_route ["A", "B"] (fun _ => 1) [⟨"Bus", 40, 2, 5⟩] =
      .ok (if (dedupSig (specBalancedAll ["A", "B"] (fun _ => 1)
            [⟨"Bus", 40, 2, 5⟩])).length < 3
           then (specBalancedAll ["A", "B"] (fun _ => 1) [⟨"Bus", 40, 2, 5⟩]).take 3
           else dedupSig (specBalancedAll ["A", "B"] (fun _ => 1)
            [⟨"Bus", 40, 2, 5⟩])) ∧
    (specBalancedAll ["A", "B"] (fun _ => 1) [⟨"Bus", 40, 2, 5⟩]).length = 3 ∧
    ∀ k, k < 3 → ∀ j, j < (legsOf ["A", "B"]).length →
      (((specBalancedAll ["A", "B"] (fun _ => 1) [⟨"Bus", 40, 2, 5⟩]).getD k
          []).getD j junkSeg).selected_mode =
        (topsis_evaluation (calculate_mode_details
            ((fun _ => (1 : ℝ)) ((legsOf ["A", "B"]).getD j ("", "")))
            [⟨"Bus", 40, 2, 5⟩])
          (weight_combinations.getD k (0, 0)).1
          (weight_combinations.getD k (0, 0)).2).headD junkMode :=
  calculate_balanced_route_eq ["A", "B"] (fun _ => 1) [⟨"Bus", 40, 2, 5⟩]
    (List.cons_ne_nil _ _)

/-- **C3 (amended).** `calculate_route_preferences` succeeds for the
three recognised criterion strings `least_time`, `least_cost` and
`balanced_topsis` (given a nonempty catalog), and fails with the
invalid-criterion error for every other string — in particular for the
string `balanced`. -/
theorem calculate_route_preferences_cases (route : List String)
    (dists : String × String → ℝ) (modes : List TransportMode)
    (hm : modes ≠ []) :
    (∃ x, calculate_route_preferences route dists modes "least_time" = .ok x) ∧
    (∃ x, calculate_route_preferences route dists modes "least_cost" = .ok x) ∧
    (∃ x, calculate_route_preferences route dists modes "balanced_topsis" = .ok x) ∧
    ∀ preference : String, preference ≠ "least_time" → preference ≠ "least_cost" →
      preference ≠ "balanced_topsis" →
      calculate_route_preferences route dists modes preference =
        .error .invalidCriterion := by
  have hlt : calculate_route_preferences route dists modes "least_time" =
      generate_single_route route dists modes "least_time" := by
    rw [calculate_route_preferences, if_neg (by decide), if_pos rfl]
  have hlc : calculate_route_preferences route dists modes "least_cost" =
      generate_single_route route dists modes "least_cost" := by
    rw [calculate_route_preferences, if_neg (by decide), if_neg (by decide), if_pos rfl]
  have hbt : calculate_route_preferences route dists modes "balanced_topsis" =
      calculate_balanced_route route dists modes := by
    rw [calculate_route_preferences, if_pos rfl]
  refine ⟨⟨_, hlt.trans (generate_single_route_eq route dists modes _ (Or.inl rfl) hm)⟩,
    ⟨_, hlc.trans (generate_single_route_eq route dists modes _ (Or.inr rfl) hm)⟩,
    ⟨_, hbt.trans (calculate_balanced_route_eq route dists modes hm).1⟩, ?_⟩
  intro preference h1 h2 h3
  rw [calculate_route_preferences, if_neg h3, if_neg h1, if_neg h2]

/-- Witness for C3 at a concrete instance. -/
theorem calculate_route_preferences_cases_witness :
    (∃ x, calculate_route_preferences ["A", "B"] (fun _ => 1)
      [⟨"Bus", 40, 2, 5⟩] "least_time" = .ok x) ∧
    (∃ x, calculate_route_preferences ["A", "B"] (fun _ => 1)
      [⟨"Bus", 40, 2, 5⟩] "least_cost" = .ok x) ∧
    (∃ x, calculate_route_preferences ["A", "B"] (fun _ => 1)
      [⟨"Bus", 40, 2, 5⟩] "balanced_topsis" = .ok x) ∧
    ∀ preference : String, preference ≠ "least_time" → preference ≠ "least_cost" →
      preference ≠ "balanced_topsis" →
      calculate_route_preferences ["A", "B"] (fun _ => 1)
        [⟨"Bus", 40, 2, 5⟩] preference = .error .invalidCriterion :=
  calculate_route_preferences_cases ["A", "B"] (fun _ => 1) [⟨"Bus", 40, 2, 5⟩]
    (List.cons_ne_nil _ _)

/-- Counterexample for C3 as stated: the spec string `balanced` is not
recognised by the code (which recognises `balanced_topsis`), so the call
fails with the invalid-criterion error instead of succeeding. -/
theorem calculate_route_preferences_balanced_counterexample :
    calculate_route_preferences ["A", "B"] (fun _ => 0) [] "balanced" =
      .error .invalidCriterion := by
  rw [calculate_route_preferences, if_neg (by decide), if_neg (by decide),
    if_neg (by decide)]

/-- **C10.** For every recognised criterion, nonempty catalog and route
with at least one leg, `calculate_route_preferences` returns exactly 3
alternatives. -/
theorem calculate_route_preferences_three (route : List String)
    (dists : String × String → ℝ) (modes : List TransportMode)
    (preference : String)
    (hpref : preference = "least_time" ∨ preference = "least_cost" ∨
      preference = "balanced_topsis")
    (hm : modes ≠ []) (_hroute : 2 ≤ route.length) :
    ∃ alts, calculate_route_preferences route dists modes preference = .ok alts ∧
      alts.length = 3 := by
  rcases hpref with h | h | h <;> subst h
  · have hlt : calculate_route_preferences route dists modes "least_time" =
        generate_single_route route dists modes "least_time" := by
      rw [calculate_route_preferences, if_neg (by decide), if_pos rfl]
    exact ⟨_, hlt.trans (generate_single_route_eq route dists modes _ (Or.inl rfl) hm),
      by rw [List.length_map, List.length_range]⟩
  · have hlc : calculate_route_preferences route dists modes "least_cost" =
        generate_single_route route dists modes "least_cost" := by
      rw [calculate_route_preferences, if_neg (by decide), if_neg (by decide), if_pos rfl]
    exact ⟨_, hlc.trans (generate_single_route_eq route dists modes _ (Or.inr rfl) hm),
      by rw [List.length_map, List.length_range]⟩
  · have hbt : calculate_route_preferences route dists modes "balanced_topsis" =
        calculate_balanced_route route dists modes := by
      rw [calculate_route_preferences, if_pos rfl]
    refine ⟨_, hbt.trans (calculate_balanced_route_eq route dists modes hm).1, ?_⟩
    have h3 := specBalancedAll_length route dists modes
    have hle := dedupSigAux_length_le [] (specBalancedAll route dists modes)
    rw [dedupSig]
    split_ifs with hlt2
    · rw [List.length_take, h3]
      exact min_self 3
    · rw [h3] at hle
      omega

/-- Witness for C10 at a concrete instance. -/
theorem calculate_route_preferences_three_witness :
    ∃ alts, calculate_route_preferences ["A", "B"] (fun _ => 1)
      [⟨"Bus", 40, 2, 5⟩] "balanced_topsis" = .ok alts ∧ alts.length = 3 :=
  calculate_route_preferences_three ["A", "B"] (fun _ => 1) [⟨"Bus", 40, 2, 5⟩]
    "balanced_topsis" (Or.inr (Or.inr rfl)) (List.cons_ne_nil _ _) (by norm_num)


end TarjanRoute
